import Mathlib

/-!
# go-recipes: numeric statistics, word frequencies and filtering

A shallow embedding of the functions of

* `1_basics/1_numbers/main.go` (`Sum`, `Mean`),
* `1_basics/2_slices/main.go` (`Median`),
* `1_basics/3_maps/main.go` (`frequency`),
* `1_basics/7_ch_filter/main.go` (`filter`, `isOdd`),
* `3_strings/6_ch_text/main.go` (`cmdFreq`),

followed by the properties the specification states about them.

Conventions of the embedding.

* Go `int` is the 64-bit integer in twos-complement form: values are `Int`s in
  `[-2^63, 2^63)` and every addition is followed by `wrap64`; `/` and `%`
  truncate toward zero (`Int.tdiv`, `Int.tmod`).
* A finite `float64` is represented by the rational number it denotes.  The
  result of a float operation has type `F64`: it is an infinity when the exact
  result reaches the overflow threshold of `float64`, NaN for `0 / 0`, and
  the exact result otherwise (rounding within the finite range is not
  modelled).
* A Go slice is a `List`; indexing outside the slice is the run-time panic
  `GoPanic.indexOutOfRange`, carried by `Except`.  Where the identity of the
  backing array matters, a slice is a window of an array of a `Heap`.
* A Go `map[string]int` is an association list without duplicate keys;
  reading an absent key gives the zero value `0`.  Counts are not wrapped: a
  count is at most the number of tokens or lines read.
* The file and its scanner are a `LineSource`: the lines delivered, then end
  of input or a read failure.
-/

namespace GoRecipes

/-! ## Machine integers and floats -/

/-- Reduction of an integer into the signed 64-bit range (twos complement). -/
def wrap64 (x : Int) : Int := (x + 2 ^ 63) % 2 ^ 64 - 2 ^ 63

/-- Membership in the range of the Go type `int` (64 bits). -/
def InInt64 (x : Int) : Prop := -(2 : Int) ^ 63 ≤ x ∧ x < 2 ^ 63

instance (x : Int) : Decidable (InInt64 x) := by
  unfold InInt64; infer_instance

/-- Values of a float64 expression: a finite number, an infinity, or NaN. -/
inductive F64 where
  | finite (q : ℚ)
  | posInf
  | negInf
  | nan
  deriving DecidableEq

/-- Float division `a / b` of two finite floats (IEEE 754, exact on finite
results): `0 / 0` is NaN and `a / 0` with `a ≠ 0` is an infinity. -/
def F64.div (a b : ℚ) : F64 :=
  if b = 0 then
    if a = 0 then F64.nan else if 0 < a then F64.posInf else F64.negInf
  else F64.finite (a / b)

/-- Largest finite `float64`, `math.MaxFloat64 = (2 - 2^-52) * 2^1023`. -/
def maxFloat64 : ℚ := 2 ^ 1024 - 2 ^ 971

/-- Overflow threshold of round-to-nearest: an exact result of this magnitude
or more (`MaxFloat64` plus half a unit in the last place) rounds to an
infinity. -/
def overflowThreshold : ℚ := 2 ^ 1024 - 2 ^ 970

/-- Result of a float operation whose exact value is `q`: an infinity when `q`
is at or beyond the overflow threshold, else `q` (rounding within the finite
range is not modelled). -/
def F64.ofExact (q : ℚ) : F64 :=
  if overflowThreshold ≤ q then F64.posInf
  else if q ≤ -overflowThreshold then F64.negInf
  else F64.finite q

/-- Float addition `x + y` (IEEE 754). -/
def F64.add : F64 → F64 → F64
  | .finite a, .finite b => F64.ofExact (a + b)
  | .nan, _ => .nan
  | _, .nan => .nan
  | .posInf, .negInf => .nan
  | .negInf, .posInf => .nan
  | .posInf, _ => .posInf
  | _, .posInf => .posInf
  | .negInf, _ => .negInf
  | _, .negInf => .negInf

/-- Float division `x / 2` by the constant 2. -/
def F64.half : F64 → F64
  | .finite a => F64.ofExact (a / 2)
  | .posInf => .posInf
  | .negInf => .negInf
  | .nan => .nan

/-- A float value lies between two finite bounds, inclusive (an infinity or
NaN does not). -/
def F64.Between (lo hi : ℚ) : F64 → Prop
  | .finite q => lo ≤ q ∧ q ≤ hi
  | _ => False

/-! ## Slices and panics -/

/-- Run-time panics of the Go functions modelled here. -/
inductive GoPanic where
  | indexOutOfRange (index : Int) (length : Nat)
  deriving DecidableEq

instance instDecidableEqExcept {ε α : Type} [DecidableEq ε] [DecidableEq α] :
    DecidableEq (Except ε α)
  | .ok a, .ok b => if h : a = b then isTrue (by rw [h]) else isFalse (by intro e; cases e; exact h rfl)
  | .error a, .error b =>
    if h : a = b then isTrue (by rw [h]) else isFalse (by intro e; cases e; exact h rfl)
  | .ok _, .error _ => isFalse (by intro e; cases e)
  | .error _, .ok _ => isFalse (by intro e; cases e)

/-- Index expression `s[i]` on a slice: the element at position `i`, or the
panic "index out of range" when `i` is negative or not below `len(s)`. -/
def index (s : List ℚ) (i : Int) : Except GoPanic ℚ :=
  if 0 ≤ i ∧ i < s.length then
    match s[i.toNat]? with
    | some v => .ok v
    | none => .error (.indexOutOfRange i s.length)
  else .error (.indexOutOfRange i s.length)

/-- Library call `sort.Float64s`: sorts a slice of (non-NaN) floats in
increasing order.  The sorted slice of a list of numbers does not depend on
the algorithm, so insertion sort stands for the one of the library. -/
def Float64s (x : List ℚ) : List ℚ := x.insertionSort (· ≤ ·)

/-! ## `1_basics/1_numbers/main.go` -/

/-- Function `Sum`: `total := 0; for _, n := range nums { total += n }`. -/
def Sum (nums : List Int) : Int :=
  nums.foldl (fun total n => wrap64 (total + n)) 0

/-- Function `Mean`: `float64(Sum(nums)) / float64(len(nums))`. -/
def Mean (nums : List Int) : F64 :=
  let sum := Sum nums
  F64.div (sum : ℚ) (nums.length : ℚ)

/-! ## `1_basics/2_slices/main.go` -/

/-- What `Median` leaves behind: the slice of the caller, the local slice `vals`
and the outcome of the call. -/
structure MedianExit where
  nums : List ℚ
  vals : List ℚ
  result : Except GoPanic F64

/-- Body of `Median`, statement by statement, on a slice of finite floats:
`vals` receives a copy of `nums` and is sorted; both branches of the `if` then
index `nums`.  The expression `(nums[count/2-1] + nums[count/2]) / 2` is a
float addition followed by a float division by 2. -/
def Median.exec (nums : List ℚ) : MedianExit :=
  let count : Int := nums.length
  let vals : List ℚ := Float64s nums
  let result : Except GoPanic F64 :=
    if Int.tmod count 2 = 0 then do
      let a ← index nums (Int.tdiv count 2 - 1)
      let b ← index nums (Int.tdiv count 2)
      pure (F64.half (F64.add (.finite a) (.finite b)))
    else do
      let a ← index nums (Int.tdiv count 2)
      pure (.finite a)
  ⟨nums, vals, result⟩

/-- Function `Median`: the value returned (or the panic raised). -/
def Median (nums : List ℚ) : Except GoPanic F64 := (Median.exec nums).result

/-- Median as the specification words it: the input is copied and the copy
sorted ascending; for an odd count `n` the element at index `n/2` of the sorted
copy, for an even count the average of its two central elements (the exact
average, a rational number); an empty input has no median. -/
def specMedian (nums : List ℚ) : Option ℚ :=
  let s := nums.insertionSort (· ≤ ·)
  let n := nums.length
  if n = 0 then none
  else if n % 2 = 1 then s[n / 2]?
  else do
    let a ← s[n / 2 - 1]?
    let b ← s[n / 2]?
    pure ((a + b) / 2)

/-! ## `1_basics/3_maps/main.go` -/

/-- Go value of type `map[string]int`: the entries in insertion order, keys
pairwise distinct. -/
structure GoMap where
  entries : List (String × Int)
  deriving DecidableEq

/-- Expression `make(map[string]int)`: the empty map. -/
def GoMap.make : GoMap := ⟨[]⟩

/-- Entry lookup by key. -/
def GoMap.find : List (String × Int) → String → Option Int
  | [], _ => none
  | (k, v) :: rest, key => if k = key then some v else GoMap.find rest key

/-- Expression `m[key]` read: the stored value, or the zero value `0` when the
key is absent. -/
def GoMap.get (m : GoMap) (key : String) : Int :=
  match GoMap.find m.entries key with
  | some v => v
  | none => 0

/-- Key presence, the `ok` of `_, ok := m[key]`. -/
def GoMap.contains (m : GoMap) (key : String) : Bool :=
  (GoMap.find m.entries key).isSome

/-- Entry update: replaces the value of an existing key, appends a new one. -/
def GoMap.store : List (String × Int) → String → Int → List (String × Int)
  | [], key, v => [(key, v)]
  | (k, w) :: rest, key, v =>
    if k = key then (k, v) :: rest else (k, w) :: GoMap.store rest key v

/-- Statement `m[key] = v`. -/
def GoMap.set (m : GoMap) (key : String) (v : Int) : GoMap :=
  ⟨GoMap.store m.entries key v⟩

/-- Library call `strings.SplitSeq(s, sep)` for a one-character separator, on
the characters of `s`: the pieces of `s` between consecutive occurrences of
`sep`, in order; `k` occurrences give `k + 1` pieces, empty ones included. -/
def splitChars (sep : Char) : List Char → List (List Char)
  | [] => [[]]
  | c :: cs =>
    if c = sep then [] :: splitChars sep cs
    else
      match splitChars sep cs with
      | [] => [[c]]
      | w :: ws => (c :: w) :: ws

/-- Library call `strings.SplitSeq(s, sep)` with `sep` a single character. -/
def SplitSeq (s : String) (sep : Char) : List String :=
  (splitChars sep s.data).map String.mk

/-- Library call `strings.ToLower(s)`: every character of `s` replaced by its
lower-case form, given by the table `lower` (`unicode.ToLower` of the
standard library). -/
def ToLower (lower : Char → Char) (s : String) : String :=
  String.mk (s.data.map lower)

/-- Function `frequency`; `lower` is the lower-casing table used by
`strings.ToLower`. -/
def frequency (lower : Char → Char) (str : String) : GoMap :=
  let freq := GoMap.make
  let words := SplitSeq (ToLower lower str) ' '
  words.foldl (fun freq word => freq.set word (freq.get word + 1)) freq

/-- Go expression `len(m)` on a map: the number of keys. -/
def GoMap.len (m : GoMap) : Nat := m.entries.length

/-- Sum of all the counts stored in a map. -/
def GoMap.total (m : GoMap) : Int := (m.entries.map Prod.snd).sum

/-! ## `1_basics/7_ch_filter/main.go` -/

/-- Function `filter`: `filtered` starts as the nil slice and receives, in
order, every `v` of `values` with `pred(v)`. -/
def filter (pred : Int → Bool) (values : List Int) : List Int :=
  values.foldl (fun filtered v => if pred v then filtered ++ [v] else filtered) []

/-- Function `isOdd`: `n%2 == 1`, where `%` is the remainder of the Go
division, which truncates toward zero (the remainder has the sign of `n`). -/
def isOdd (n : Int) : Bool := decide (Int.tmod n 2 = 1)

/-! ## `3_strings/6_ch_text/main.go` -/

/-- Go value of type `error` (non-nil). -/
structure GoError where
  msg : String
  deriving DecidableEq

/-- What a `bufio.Scanner` delivers over an opened file: the lines returned by
the successive calls of `Scan` that succeed, then the reason `Scan` returned
false, as reported by `Err`: end of input (`none`) or a read failure. -/
structure LineSource where
  lines : List String
  err : Option GoError

/-- Outcome of `os.Open`. -/
inductive OpenResult where
  | failed (err : GoError)
  | opened (src : LineSource)

/-- Character class `[a-z]` of the pattern. -/
def lowerAZ (c : Char) : Bool := decide ('a' ≤ c) && decide (c ≤ 'z')

/-- Match of the pattern `;go ([a-z]+)` anchored at the start of the text: the
literal `;go `, then the longest non-empty run of `[a-z]` (the repetition is
greedy); the result is the text of the capture group. -/
def matchAt : List Char → Option (List Char)
  | ';' :: 'g' :: 'o' :: ' ' :: rest =>
    match rest.takeWhile lowerAZ with
    | [] => none
    | cap => some cap
  | _ => none

/-- Capture group of the leftmost match of `;go ([a-z]+)` in the text. -/
def findCapture : List Char → Option (List Char)
  | [] => none
  | c :: cs =>
    match matchAt (c :: cs) with
    | some cap => some cap
    | none => findCapture cs

/-- Call `cmdRe.FindStringSubmatch(s)` for `cmdRe = ;go ([a-z]+)`: nil when
the pattern does not match, else the text of the leftmost match followed by
the text of its capture group. -/
def FindStringSubmatch (s : String) : List String :=
  match findCapture s.data with
  | none => []
  | some cap => [String.mk (';' :: 'g' :: 'o' :: ' ' :: cap), String.mk cap]

/-- Index expression `s[i]` on a slice of strings. -/
def indexString (s : List String) (i : Int) : Except GoPanic String :=
  if 0 ≤ i ∧ i < s.length then
    match s[i.toNat]? with
    | some v => .ok v
    | none => .error (.indexOutOfRange i s.length)
  else .error (.indexOutOfRange i s.length)

/-- Body of the scanning loop of `cmdFreq` for one line `s.Text()`. -/
def cmdFreq.step (freqs : GoMap) (text : String) : Except GoPanic GoMap :=
  let submatches := FindStringSubmatch text
  if submatches.length = 0 then .ok freqs
  else do
    let cmd ← indexString submatches 1
    pure (freqs.set cmd (freqs.get cmd + 1))

/-- Function `cmdFreq`; `osOpen` stands for `os.Open`.  The result is the pair
`(map, error)` of the Go function, `none` being `nil`. -/
def cmdFreq (osOpen : String → OpenResult) (fileName : String) :
    Except GoPanic (Option GoMap × Option GoError) :=
  match osOpen fileName with
  | .failed err => .ok (none, some err)
  | .opened s => do
    let freqs ← s.lines.foldlM cmdFreq.step GoMap.make
    match s.err with
    | some err => pure (none, some err)
    | none => pure (some freqs, none)

/-- Capture group of the first match of the pattern in a line, if any. -/
def capture (line : String) : Option String :=
  (findCapture line.data).map String.mk

/-! ## Slices as views of arrays

The effect of `Median` on memory: a slice value designates a window of a
backing array, and `make`, `copy` and `sort.Float64s` act on the arrays. -/

/-- Slice value: the backing array (its position in the heap), the offset of
the first element and the length. -/
structure Slice where
  arr : Nat
  off : Nat
  len : Nat

/-- Backing arrays allocated so far. -/
structure Heap where
  arrays : List (List ℚ)

/-- A slice of an allocated array that lies within the array. -/
def Heap.Valid (h : Heap) (s : Slice) : Prop :=
  s.arr < h.arrays.length ∧ s.off + s.len ≤ (h.arrays.getD s.arr []).length

instance (h : Heap) (s : Slice) : Decidable (h.Valid s) := by
  unfold Heap.Valid; infer_instance

/-- Elements of a slice, in order. -/
def Heap.read (h : Heap) (s : Slice) : List ℚ :=
  ((h.arrays.getD s.arr []).drop s.off).take s.len

/-- Assignment of `xs` to the first `len(xs)` elements of a slice. -/
def Heap.write (h : Heap) (s : Slice) (xs : List ℚ) : Heap :=
  let a := h.arrays.getD s.arr []
  ⟨h.arrays.set s.arr (a.take s.off ++ xs ++ a.drop (s.off + xs.length))⟩

/-- Expression `make([]float64, n)`: a fresh zeroed array and the slice of all
of it. -/
def Heap.makeSlice (h : Heap) (n : Nat) : Heap × Slice :=
  (⟨h.arrays ++ [List.replicate n 0]⟩, ⟨h.arrays.length, 0, n⟩)

/-- Call `copy(dst, src)`: the first `min(len(dst), len(src))` elements of
`src` are assigned to `dst`. -/
def Heap.copy (h : Heap) (dst src : Slice) : Heap :=
  h.write dst ((h.read src).take (min dst.len src.len))

/-- Call `sort.Float64s(s)`: the elements of the slice are sorted in place. -/
def Heap.sortFloat64s (h : Heap) (s : Slice) : Heap :=
  h.write s (Float64s (h.read s))

/-- Function `Median` executed on the heap: the final heap, the local slice
`vals` and the outcome. -/
def Median.run (h : Heap) (nums : Slice) : Heap × Slice × Except GoPanic F64 :=
  let count : Int := nums.len
  let hv := h.makeSlice nums.len
  let vals := hv.2
  let h2 := hv.1.copy vals nums
  let h3 := h2.sortFloat64s vals
  let result : Except GoPanic F64 :=
    if Int.tmod count 2 = 0 then do
      let a ← index (h3.read nums) (Int.tdiv count 2 - 1)
      let b ← index (h3.read nums) (Int.tdiv count 2)
      pure (F64.half (F64.add (.finite a) (.finite b)))
    else do
      let a ← index (h3.read nums) (Int.tdiv count 2)
      pure (.finite a)
  (h3, vals, result)

/-! ## Indexing lemmas -/

theorem index_ofNat (s : List ℚ) (i : Nat) (h : i < s.length) :
    index s (i : Int) = .ok (s.get ⟨i, h⟩) := by
  have h1 : (0 : Int) ≤ (i : Int) ∧ (i : Int) < (s.length : Int) :=
    ⟨Int.ofNat_nonneg i, Int.ofNat_lt.mpr h⟩
  simp only [index, if_pos h1, Int.toNat_ofNat, List.getElem?_eq_getElem h]
  rfl

theorem index_neg (s : List ℚ) (i : Int) (h : i < 0) :
    index s i = .error (.indexOutOfRange i s.length) := by
  have h1 : ¬ ((0 : Int) ≤ i ∧ i < (s.length : Int)) := fun hc => absurd hc.1 (not_le.mpr h)
  simp only [index, if_neg h1]

theorem Median_unfold (nums : List ℚ) :
    Median nums =
      if nums.length % 2 = 0 then
        (do
          let a ← index nums (((nums.length / 2 : Nat) : Int) - 1)
          let b ← index nums ((nums.length / 2 : Nat) : Int)
          pure (F64.half (F64.add (.finite a) (.finite b))))
      else (do
          let a ← index nums ((nums.length / 2 : Nat) : Int)
          pure (.finite a)) := by
  have hm : Int.tmod (nums.length : Int) 2 = ((nums.length % 2 : Nat) : Int) :=
    (Int.ofNat_tmod nums.length 2).symm
  have hd : Int.tdiv (nums.length : Int) 2 = ((nums.length / 2 : Nat) : Int) :=
    (Int.ofNat_tdiv nums.length 2).symm
  have hz : (((nums.length % 2 : Nat) : Int) = 0) ↔ nums.length % 2 = 0 := Int.natCast_eq_zero
  show (if Int.tmod (nums.length : Int) 2 = 0 then _ else _) = _
  rw [hm, hd]
  by_cases h : nums.length % 2 = 0
  · rw [if_pos (hz.mpr h), if_pos h]
  · rw [if_neg (fun hc => h (hz.mp hc)), if_neg h]

/-- On an odd-length slice `Median` returns the element at index `n/2` of the
slice as it was passed in. -/
theorem Median_odd (nums : List ℚ) (h : nums.length % 2 = 1) :
    Median nums = .ok (.finite (nums.get ⟨nums.length / 2, by omega⟩)) := by
  rw [Median_unfold, if_neg (by omega), index_ofNat]
  rfl

/-- On a non-empty even-length slice `Median` returns the float sum, halved, of
the elements at indices `n/2 - 1` and `n/2` of the slice as it was passed in. -/
theorem Median_even (nums : List ℚ) (h : nums.length % 2 = 0) (hpos : 0 < nums.length) :
    Median nums = .ok (F64.half (F64.add
      (.finite (nums.get ⟨nums.length / 2 - 1, by omega⟩))
      (.finite (nums.get ⟨nums.length / 2, by omega⟩)))) := by
  have h1 : ((nums.length / 2 : Nat) : Int) - 1 = ((nums.length / 2 - 1 : Nat) : Int) := by
    omega
  rw [Median_unfold, if_pos h, h1, index_ofNat nums _ (by omega),
    index_ofNat nums _ (by omega)]
  rfl

theorem overflowThreshold_pos : 0 < overflowThreshold := by
  unfold overflowThreshold
  norm_num

/-- Halving the float sum of two finite floats: the exact average when the sum
stays below the overflow threshold, an infinity otherwise. -/
theorem half_add_finite (a b : ℚ) :
    F64.half (F64.add (.finite a) (.finite b)) =
      if overflowThreshold ≤ a + b then F64.posInf
      else if a + b ≤ -overflowThreshold then F64.negInf
      else F64.finite ((a + b) / 2) := by
  have hp := overflowThreshold_pos
  simp only [F64.add, F64.ofExact]
  by_cases h1 : overflowThreshold ≤ a + b
  · simp only [if_pos h1, F64.half]
  · by_cases h2 : a + b ≤ -overflowThreshold
    · simp only [if_neg h1, if_pos h2, F64.half]
    · have h3 : ¬ overflowThreshold ≤ (a + b) / 2 := by
        intro hc
        apply h1
        push_neg at h2
        linarith
      have h4 : ¬ (a + b) / 2 ≤ -overflowThreshold := by
        intro hc
        apply h2
        push_neg at h1
        linarith
      simp only [if_neg h1, if_neg h2, F64.half, F64.ofExact, if_neg h3, if_neg h4]

/-- Without overflow the halved float sum is the exact average. -/
theorem half_add_of_lt (a b : ℚ) (h : |a + b| < overflowThreshold) :
    F64.half (F64.add (.finite a) (.finite b)) = F64.finite ((a + b) / 2) := by
  rw [abs_lt] at h
  rw [half_add_finite, if_neg (not_le.mpr h.2), if_neg (not_le.mpr h.1)]

/-- Sums of magnitude at most `2^64` are far below the overflow threshold. -/
theorem lt_overflowThreshold_of_small (q : ℚ) (h : |q| ≤ 2 ^ 64) : |q| < overflowThreshold := by
  refine lt_of_le_of_lt h ?_
  unfold overflowThreshold
  norm_num

/-- The float sum of `MaxFloat64` with itself overflows. -/
theorem half_add_maxFloat64 :
    F64.half (F64.add (.finite maxFloat64) (.finite maxFloat64)) = F64.posInf := by
  rw [half_add_finite, if_pos]
  unfold overflowThreshold maxFloat64
  norm_num

theorem specMedian_odd (nums : List ℚ) (h : nums.length % 2 = 1) :
    specMedian nums = some ((Float64s nums).get ⟨nums.length / 2, by
      rw [Float64s, List.length_insertionSort]; omega⟩) := by
  have hl : nums.length / 2 < (nums.insertionSort (· ≤ ·)).length := by
    rw [List.length_insertionSort]; omega
  simp only [specMedian, if_neg (show ¬ nums.length = 0 by omega), if_pos h,
    List.getElem?_eq_getElem hl]
  rfl

theorem specMedian_of_sorted_odd (nums : List ℚ) (hs : nums.Sorted (· ≤ ·))
    (h : nums.length % 2 = 1) :
    specMedian nums = some (nums.get ⟨nums.length / 2, by omega⟩) := by
  have hl : nums.length / 2 < nums.length := by omega
  simp only [specMedian, hs.insertionSort_eq, if_neg (show ¬ nums.length = 0 by omega), if_pos h,
    List.getElem?_eq_getElem hl]
  rfl

theorem specMedian_of_sorted_even (nums : List ℚ) (hs : nums.Sorted (· ≤ ·))
    (h : nums.length % 2 = 0) (hpos : 0 < nums.length) :
    specMedian nums = some ((nums.get ⟨nums.length / 2 - 1, by omega⟩
      + nums.get ⟨nums.length / 2, by omega⟩) / 2) := by
  have hl : nums.length / 2 < nums.length := by omega
  have hl1 : nums.length / 2 - 1 < nums.length := by omega
  simp only [specMedian, hs.insertionSort_eq, if_neg (show ¬ nums.length = 0 by omega),
    if_neg (show ¬ nums.length % 2 = 1 by omega),
    List.getElem?_eq_getElem hl, List.getElem?_eq_getElem hl1]
  rfl

/-! ## Median: the value returned -/

/-- C1 (code defect): on the odd-length slice `[3, 1, 2]` the function `Median`
returns `1`, the element at index `3/2 = 1` of the slice in its original order,
while the local sorted copy is `[1, 2, 3]`, whose element at index 1 (the
specified median) is `2`. -/
theorem Median_odd_reads_unsorted_input :
    Median [3, 1, 2] = .ok (.finite 1) ∧ (Median.exec [3, 1, 2]).vals = [1, 2, 3] ∧
      (Median.exec [3, 1, 2]).vals[3 / 2]? = some 2 ∧ specMedian [3, 1, 2] = some 2 := by
  decide

/-- C2 (code defect): on the even-length slice `[4, 1, 3, 2]` the function
`Median` returns `(1 + 3) / 2 = 2`, the average of the elements at indices 1 and
2 of the slice in its original order, while the two central elements of the
sorted copy `[1, 2, 3, 4]` are `2` and `3`, whose average (the specified
median) is `5/2`. -/
theorem Median_even_reads_unsorted_input :
    Median [4, 1, 3, 2] = .ok (.finite 2) ∧ (Median.exec [4, 1, 3, 2]).vals = [1, 2, 3, 4] ∧
      specMedian [4, 1, 3, 2] = some (5 / 2) := by
  refine ⟨?_, by decide, ?_⟩
  · rw [Median_even _ (by decide) (by decide)]
    simp only [List.length, List.get]
    rw [half_add_of_lt _ _ (lt_overflowThreshold_of_small _ (by norm_num))]
    norm_num
  · have hs : List.insertionSort (· ≤ ·) ([4, 1, 3, 2] : List ℚ) = [1, 2, 3, 4] := by decide
    simp only [specMedian, hs]
    norm_num

/-- C3 (code defect): `[30, 10, 20]` is a permutation of `[10, 20, 30]`, yet
`Median` returns `10` on the former and `20` on the latter: the result depends
on the order of the input, because the sorted copy is never read. -/
theorem Median_depends_on_order :
    List.Perm ([30, 10, 20] : List ℚ) [10, 20, 30] ∧
      Median [30, 10, 20] = .ok (.finite 10) ∧ Median [10, 20, 30] = .ok (.finite 20) := by
  decide

/-- C4 (code defect): for `S = [5, 3, 4]`, whose ascending sort is `[3, 4, 5]`,
`Median` of the sorted slice is `4` while `Median S` is `3`. -/
theorem Median_sort_differs :
    Float64s [5, 3, 4] = [3, 4, 5] ∧ Median (Float64s [5, 3, 4]) = .ok (.finite 4) ∧
      Median [5, 3, 4] = .ok (.finite 3) := by
  decide

/-- C5 (counterexample): the slice `[MaxFloat64, MaxFloat64]` is non-empty and
sorted ascending, and its true median (the average of its two middle elements)
is `MaxFloat64`; the float sum of the two middle elements overflows and
`Median` returns `+Inf`. -/
theorem Median_of_sorted_overflow :
    ([maxFloat64, maxFloat64] : List ℚ) ≠ [] ∧
      List.Sorted (· ≤ ·) ([maxFloat64, maxFloat64] : List ℚ) ∧
      specMedian [maxFloat64, maxFloat64] = some maxFloat64 ∧
      Median [maxFloat64, maxFloat64] = .ok F64.posInf ∧
      Median [maxFloat64, maxFloat64] ≠ .ok (F64.finite maxFloat64) := by
  have hs : List.Sorted (· ≤ ·) ([maxFloat64, maxFloat64] : List ℚ) := by
    simp [List.Sorted]
  have hm : Median [maxFloat64, maxFloat64] = .ok F64.posInf := by
    rw [Median_even _ (by decide) (by decide)]
    simp only [List.length, List.get]
    rw [half_add_maxFloat64]
  refine ⟨by simp, hs, ?_, hm, ?_⟩
  · rw [specMedian_of_sorted_even _ hs (by decide) (by decide)]
    simp only [List.length, List.get]
    congr 1
    ring
  · rw [hm]
    intro hc
    cases hc

/-- C5 (amended): on a non-empty slice of finite floats that is already
sorted ascending, `Median` returns the median of the specification, provided
that, when the length is even, the float sum of the two middle elements does
not overflow; it is the middle element when the length is odd and the average
of the two middle elements when it is even.  In particular
`Median [2,4,5,6,7,8,9] = 6` and `Median [1,2,3,4,5,6,8,9] = 4.5`. -/
theorem Median_of_sorted (nums : List ℚ) (hne : nums ≠ []) (hs : nums.Sorted (· ≤ ·))
    (hno : nums.length % 2 = 0 → ∀ a b, nums[nums.length / 2 - 1]? = some a →
      nums[nums.length / 2]? = some b → |a + b| < overflowThreshold) :
    (∃ m, Median nums = .ok (.finite m) ∧ specMedian nums = some m ∧
      (nums.length % 2 = 1 → nums[nums.length / 2]? = some m) ∧
      (nums.length % 2 = 0 → ∃ a b, nums[nums.length / 2 - 1]? = some a ∧
        nums[nums.length / 2]? = some b ∧ m = (a + b) / 2)) ∧
    Median [2, 4, 5, 6, 7, 8, 9] = .ok (.finite 6) ∧
    Median [1, 2, 3, 4, 5, 6, 8, 9] = .ok (.finite (9 / 2)) := by
  have hpos : 0 < nums.length := List.length_pos.mpr hne
  refine ⟨?_, by decide, ?_⟩
  · rcases Nat.mod_two_eq_zero_or_one nums.length with h | h
    · have hlt := hno h _ _ (List.getElem?_eq_getElem (show nums.length / 2 - 1 < nums.length by omega))
        (List.getElem?_eq_getElem (show nums.length / 2 < nums.length by omega))
      refine ⟨_, ?_, specMedian_of_sorted_even nums hs h hpos, ?_, ?_⟩
      · rw [Median_even nums h hpos]
        exact congrArg Except.ok (half_add_of_lt _ _ hlt)
      · intro h1; omega
      · intro _
        exact ⟨_, _, List.getElem?_eq_getElem (by omega), List.getElem?_eq_getElem (by omega), rfl⟩
    · refine ⟨_, Median_odd nums h, specMedian_of_sorted_odd nums hs h, ?_, ?_⟩
      · intro _
        exact List.getElem?_eq_getElem (by omega)
      · intro h0; omega
  · rw [Median_even _ (by decide) (by decide)]
    simp only [List.length, List.get]
    rw [half_add_of_lt _ _ (lt_overflowThreshold_of_small _ (by norm_num))]
    norm_num

/-- Witness for `Median_of_sorted` on the sorted slice `[1, 2, 4, 8]`, whose
middle elements `2` and `4` have the sum `6`. -/
theorem Median_of_sorted_witness :
    ([1, 2, 4, 8] : List ℚ) ≠ [] ∧ List.Sorted (· ≤ ·) ([1, 2, 4, 8] : List ℚ) ∧
      (∀ a b : ℚ, ([1, 2, 4, 8] : List ℚ)[1]? = some a → ([1, 2, 4, 8] : List ℚ)[2]? = some b →
        |a + b| < overflowThreshold) ∧
      ∃ m, Median [1, 2, 4, 8] = .ok (.finite m) ∧ specMedian [1, 2, 4, 8] = some m :=
  have hno : ∀ a b : ℚ, ([1, 2, 4, 8] : List ℚ)[1]? = some a →
      ([1, 2, 4, 8] : List ℚ)[2]? = some b → |a + b| < overflowThreshold := by
    intro a b ha hb
    have ha2 : (2 : ℚ) = a := by simpa using ha
    have hb2 : (4 : ℚ) = b := by simpa using hb
    subst ha2
    subst hb2
    exact lt_overflowThreshold_of_small _ (by norm_num)
  ⟨by decide, by decide, hno,
    (Median_of_sorted [1, 2, 4, 8] (by decide) (by decide) (fun _ => hno)).1.imp
      fun _ h => ⟨h.1, h.2.1⟩⟩

/-- C8 (counterexample): on the empty slice `Median` evaluates `nums[-1]` and
aborts with the panic "index out of range [-1] with length 0". -/
theorem Median_empty_index_panic :
    Median [] = .error (.indexOutOfRange (-1) 0) := by
  decide

/-- C8 (amended): `Median` has no error result; it aborts with the
out-of-range index panic (index `-1`, length `0`) exactly when the slice is
empty, and returns a value exactly when the slice is non-empty. -/
theorem Median_panics_iff_empty (nums : List ℚ) :
    (Median nums = .error (.indexOutOfRange (-1) 0) ↔ nums = []) ∧
      ((∃ v, Median nums = .ok v) ↔ nums ≠ []) := by
  rcases nums with _ | ⟨x, xs⟩
  · refine ⟨⟨fun _ => rfl, fun _ => by decide⟩, ⟨?_, fun h => absurd rfl h⟩⟩
    rintro ⟨v, hv⟩
    have hp : Median [] = .error (.indexOutOfRange (-1) 0) := by decide
    rw [hp] at hv
    cases hv
  · have hok : ∃ v, Median (x :: xs) = .ok v := by
      rcases Nat.mod_two_eq_zero_or_one (x :: xs).length with h | h
      · exact ⟨_, Median_even _ h (by simp)⟩
      · exact ⟨_, Median_odd _ h⟩
    refine ⟨⟨?_, fun h => by cases h⟩, ⟨fun _ => by simp, fun _ => hok⟩⟩
    intro he
    obtain ⟨v, hv⟩ := hok
    rw [hv] at he
    cases he

/-! ## Sum and Mean -/

theorem wrap64_inInt64 (x : Int) : InInt64 (wrap64 x) := by
  unfold InInt64 wrap64
  constructor <;> omega

theorem wrap64_of_inInt64 (x : Int) (h : InInt64 x) : wrap64 x = x := by
  unfold InInt64 at h
  unfold wrap64
  omega

theorem wrap64_add_left (a b : Int) : wrap64 (wrap64 a + b) = wrap64 (a + b) := by
  unfold wrap64
  omega

theorem Sum_loop (nums : List Int) (acc : Int) (h : InInt64 acc) :
    nums.foldl (fun total n => wrap64 (total + n)) acc = wrap64 (acc + nums.sum) := by
  induction nums generalizing acc with
  | nil => simp [wrap64_of_inInt64 acc h]
  | cons n ns ih =>
    rw [List.foldl_cons, ih _ (wrap64_inInt64 _), wrap64_add_left, List.sum_cons, add_assoc]

/-- The loop of `Sum` computes the mathematical sum reduced into 64 bits. -/
theorem Sum_eq_wrap64 (nums : List Int) : Sum nums = wrap64 nums.sum := by
  have h0 : InInt64 0 := by decide
  rw [Sum, Sum_loop nums 0 h0, zero_add]

/-- C6: for a non-empty slice, `Mean` is the finite float `Sum S / len S` (an
exact ratio in the model, which does not round); `Mean [1,2,3] = 2` and
`Mean [1,2,3,4] = 2.5`. -/
theorem Mean_eq_Sum_div_len (S : List Int) (h : S ≠ []) :
    Mean S = F64.finite ((Sum S : ℚ) / (S.length : ℚ)) ∧
      Mean [1, 2, 3] = F64.finite 2 ∧ Mean [1, 2, 3, 4] = F64.finite (5 / 2) := by
  have key : ∀ T : List Int, T ≠ [] → Mean T = F64.finite ((Sum T : ℚ) / (T.length : ℚ)) := by
    intro T hT
    have hlen : ((T.length : ℚ)) ≠ 0 := by
      exact_mod_cast Nat.ne_of_gt (List.length_pos.mpr hT)
    simp only [Mean, F64.div, if_neg hlen]
  refine ⟨key S h, ?_, ?_⟩
  · rw [key _ (by decide), show Sum [1, 2, 3] = 6 by decide]
    simp only [List.length]
    norm_num
  · rw [key _ (by decide), show Sum [1, 2, 3, 4] = 10 by decide]
    simp only [List.length]
    norm_num

/-- Witness for `Mean_eq_Sum_div_len` on the slice `[1, 2, 3]`. -/
theorem Mean_eq_Sum_div_len_witness :
    ([1, 2, 3] : List Int) ≠ [] ∧
      Mean [1, 2, 3] = F64.finite ((Sum [1, 2, 3] : ℚ) / (([1, 2, 3] : List Int).length : ℚ)) :=
  ⟨by decide, (Mean_eq_Sum_div_len [1, 2, 3] (by decide)).1⟩

/-- C7 (counterexample): on the empty slice `Mean` returns NaN, the float
quotient `0 / 0`; it raises nothing. -/
theorem Mean_empty_returns_nan : Mean [] = F64.nan := by
  decide

/-- C7 (amended): `Mean` has no error result; it returns NaN exactly when the
slice is empty. -/
theorem Mean_nan_iff_empty (nums : List Int) : Mean nums = F64.nan ↔ nums = [] := by
  constructor
  · intro h
    by_contra hne
    have hlen : ((nums.length : ℚ)) ≠ 0 := by
      exact_mod_cast Nat.ne_of_gt (List.length_pos.mpr hne)
    simp only [Mean, F64.div, if_neg hlen] at h
    cases h
  · rintro rfl
    decide

/-- C9 (counterexample): both elements of `[2^63 - 1, 1]` are 64-bit ints, their
arithmetic sum is `2^63`, and `Sum` returns `-2^63`. -/
theorem Sum_overflow_wraps :
    InInt64 (2 ^ 63 - 1) ∧ InInt64 1 ∧ ([2 ^ 63 - 1, 1] : List Int).sum = 2 ^ 63 ∧
      Sum [2 ^ 63 - 1, 1] = -2 ^ 63 ∧ Sum [2 ^ 63 - 1, 1] ≠ ([2 ^ 63 - 1, 1] : List Int).sum := by
  decide

/-- C9 (amended): whenever the arithmetic sum of the elements lies in the range
of the 64-bit `int`, `Sum` returns that sum; the sum of the empty slice is 0. -/
theorem Sum_eq_sum_of_inInt64 (nums : List Int) (h : InInt64 nums.sum) :
    Sum nums = nums.sum ∧ Sum [] = 0 := by
  refine ⟨?_, by decide⟩
  rw [Sum_eq_wrap64, wrap64_of_inInt64 _ h]

/-- Witness for `Sum_eq_sum_of_inInt64` on the slice `[1, 2, 3, 4]`. -/
theorem Sum_eq_sum_of_inInt64_witness :
    InInt64 ([1, 2, 3, 4] : List Int).sum ∧ Sum [1, 2, 3, 4] = ([1, 2, 3, 4] : List Int).sum :=
  ⟨by decide, (Sum_eq_sum_of_inInt64 [1, 2, 3, 4] (by decide)).1⟩

/-! ## Maps and word frequencies -/

theorem find_store (es : List (String × Int)) (key : String) (v : Int) (k : String) :
    GoMap.find (GoMap.store es key v) k = if key = k then some v else GoMap.find es k := by
  induction es with
  | nil => simp [GoMap.store, GoMap.find]
  | cons e rest ih =>
    obtain ⟨k0, w⟩ := e
    by_cases h0 : k0 = key
    · subst h0
      by_cases h1 : k0 = k <;> simp [GoMap.store, GoMap.find, h1]
    · rw [GoMap.store, if_neg h0, GoMap.find, GoMap.find, ih]
      by_cases h1 : key = k
      · subst h1
        simp [h0]
      · simp [h1]

theorem get_set (m : GoMap) (key : String) (v : Int) (k : String) :
    (m.set key v).get k = if key = k then v else m.get k := by
  unfold GoMap.get GoMap.set
  simp only [find_store]
  by_cases h : key = k <;> simp [h]

theorem contains_set (m : GoMap) (key : String) (v : Int) (k : String) :
    (m.set key v).contains k = (decide (key = k) || m.contains k) := by
  unfold GoMap.contains GoMap.set
  simp only [find_store]
  by_cases h : key = k <;> simp [h]

/-- The counting loop adds to each key the number of its occurrences among the
words. -/
theorem count_loop_get (words : List String) (m : GoMap) (k : String) :
    (words.foldl (fun freq word => freq.set word (freq.get word + 1)) m).get k
      = m.get k + (words.count k : Int) := by
  induction words generalizing m with
  | nil => simp
  | cons x xs ih =>
    rw [List.foldl_cons, ih, get_set, List.count_cons]
    by_cases h : x = k
    · subst h
      simp
      ring
    · have hb : (x == k) = false := by simpa using h
      simp [h, hb]

/-- The counting loop creates exactly the keys that occur among the words. -/
theorem count_loop_contains (words : List String) (m : GoMap) (k : String) :
    (words.foldl (fun freq word => freq.set word (freq.get word + 1)) m).contains k = true
      ↔ (m.contains k = true ∨ k ∈ words) := by
  induction words generalizing m with
  | nil => simp
  | cons x xs ih =>
    rw [List.foldl_cons, ih, contains_set]
    simp only [Bool.or_eq_true, decide_eq_true_eq, List.mem_cons]
    constructor
    · rintro ((h | h) | h)
      · exact Or.inr (Or.inl h.symm)
      · exact Or.inl h
      · exact Or.inr (Or.inr h)
    · rintro (h | h | h)
      · exact Or.inl (Or.inr h)
      · exact Or.inl (Or.inl h.symm)
      · exact Or.inr h

/-- C10: for every string, `frequency` maps each string `w` to the number of
occurrences of `w` among the pieces obtained by lower-casing the input and
splitting it at every space, and its keys are exactly the strings that occur
among these pieces; `frequency "To be or not to be"` is the map
`to: 2, be: 2, or: 1, not: 1`. -/
theorem frequency_counts_tokens (lower : Char → Char) (str : String) (w : String) :
    (frequency lower str).get w = ((SplitSeq (ToLower lower str) ' ').count w : Int) ∧
      ((frequency lower str).contains w = true ↔ w ∈ SplitSeq (ToLower lower str) ' ') ∧
      List.Perm (frequency Char.toLower "To be or not to be").entries
        [("to", 2), ("be", 2), ("or", 1), ("not", 1)] := by
  refine ⟨?_, ?_, by decide⟩
  · have h := count_loop_get (SplitSeq (ToLower lower str) ' ') GoMap.make w
    have h0 : GoMap.make.get w = 0 := rfl
    rw [h0, zero_add] at h
    exact h
  · have h := count_loop_contains (SplitSeq (ToLower lower str) ' ') GoMap.make w
    have h0 : GoMap.make.contains w = false := rfl
    rw [h0] at h
    simpa [frequency] using h

theorem splitChars_ne_nil (sep : Char) (cs : List Char) : splitChars sep cs ≠ [] := by
  cases cs with
  | nil => simp [splitChars]
  | cons c cs =>
    rw [splitChars]
    split_ifs
    · simp
    · split <;> simp

/-- Joining the pieces with the separator gives the string back. -/
theorem splitChars_intercalate (sep : Char) (cs : List Char) :
    List.intercalate [sep] (splitChars sep cs) = cs := by
  induction cs with
  | nil => simp [splitChars, List.intercalate]
  | cons c cs ih =>
    rw [splitChars]
    have hne := splitChars_ne_nil sep cs
    by_cases h : c = sep
    · rw [if_pos h]
      cases hs : splitChars sep cs with
      | nil => exact absurd hs hne
      | cons w ws =>
        rw [hs] at ih
        simp only [List.intercalate, List.intersperse, List.flatten] at ih ⊢
        simp [ih, h]
    · rw [if_neg h]
      cases hs : splitChars sep cs with
      | nil => exact absurd hs hne
      | cons w ws =>
        rw [hs] at ih
        cases ws with
        | nil =>
          simp only [List.intercalate, List.intersperse, List.flatten] at ih ⊢
          simpa using ih
        | cons w2 ws2 =>
          simp only [List.intercalate, List.intersperse, List.flatten] at ih ⊢
          simpa using ih

/-- No piece contains the separator. -/
theorem splitChars_no_sep (sep : Char) (cs : List Char) :
    ∀ p ∈ splitChars sep cs, sep ∉ p := by
  induction cs with
  | nil => simp [splitChars]
  | cons c cs ih =>
    rw [splitChars]
    by_cases h : c = sep
    · rw [if_pos h]
      intro p hp
      rcases List.mem_cons.mp hp with rfl | hp
      · simp
      · exact ih p hp
    · rw [if_neg h]
      cases hs : splitChars sep cs with
      | nil => simp; exact fun hc => h hc.symm
      | cons w ws =>
        rw [hs] at ih
        intro p hp
        rcases List.mem_cons.mp hp with rfl | hp
        · intro hc
          rcases List.mem_cons.mp hc with hc | hc
          · exact h hc.symm
          · exact ih w (List.mem_cons_self _ _) hc
        · exact ih p (List.mem_cons_of_mem _ hp)

/-- Storing under a present key leaves the key list unchanged; storing under a
new key appends it. -/
theorem keys_store (es : List (String × Int)) (key : String) (v : Int) :
    (GoMap.store es key v).map Prod.fst =
      if key ∈ es.map Prod.fst then es.map Prod.fst else es.map Prod.fst ++ [key] := by
  induction es with
  | nil => simp [GoMap.store]
  | cons e rest ih =>
    obtain ⟨k0, w⟩ := e
    by_cases h0 : k0 = key
    · subst h0
      simp [GoMap.store]
    · have h1 : ¬ key = k0 := fun h => h0 h.symm
      rw [GoMap.store, if_neg h0, List.map_cons, ih]
      by_cases hm : key ∈ rest.map Prod.fst
      · rw [if_pos hm, if_pos (by simp only [List.map_cons, List.mem_cons]; exact Or.inr hm)]
        rfl
      · rw [if_neg hm, if_neg (by
          simp only [List.map_cons, List.mem_cons, not_or]; exact ⟨h1, hm⟩)]
        rfl

/-- The keys of the map built by `frequency` are pairwise distinct. -/
theorem frequency_keys_nodup (lower : Char → Char) (str : String) :
    ((frequency lower str).entries.map Prod.fst).Nodup := by
  have loop : ∀ (words : List String) (m : GoMap), (m.entries.map Prod.fst).Nodup →
      ((words.foldl (fun freq word => freq.set word (freq.get word + 1)) m).entries.map
        Prod.fst).Nodup := by
    intro words
    induction words with
    | nil => intro m hm; exact hm
    | cons x xs ih =>
      intro m hm
      rw [List.foldl_cons]
      apply ih
      show ((GoMap.store m.entries x (m.get x + 1)).map Prod.fst).Nodup
      rw [keys_store]
      split_ifs with hx
      · exact hm
      · exact List.Nodup.append hm (List.nodup_singleton x) (by
          simpa [List.disjoint_singleton] using hx)
  exact loop _ GoMap.make List.nodup_nil

/-! ## Filtering -/

theorem filter_loop (pred : Int → Bool) (values acc : List Int) :
    values.foldl (fun filtered v => if pred v then filtered ++ [v] else filtered) acc
      = acc ++ values.filter pred := by
  induction values generalizing acc with
  | nil => simp
  | cons v vs ih =>
    rw [List.foldl_cons, ih]
    by_cases h : pred v = true
    · simp [h, List.filter_cons]
    · simp [h, List.filter_cons]

theorem filter_eq_listFilter (pred : Int → Bool) (values : List Int) :
    filter pred values = values.filter pred := by
  rw [filter, filter_loop, List.nil_append]

/-- C12: `filter pred values` is the list-filter of `values` by `pred`: a
subsequence of `values` (relative order kept) that contains exactly the
elements satisfying `pred`, each as often as in `values`; and
`filter isOdd [1,2,3,4,5,6,7,8] = [1,3,5,7]`. -/
theorem filter_is_subsequence_of_satisfying (pred : Int → Bool) (values : List Int) :
    filter pred values = values.filter pred ∧
      List.Sublist (filter pred values) values ∧
      (∀ v, v ∈ filter pred values ↔ v ∈ values ∧ pred v = true) ∧
      (∀ v, pred v = true → (filter pred values).count v = values.count v) ∧
      filter isOdd [1, 2, 3, 4, 5, 6, 7, 8] = [1, 3, 5, 7] := by
  rw [filter_eq_listFilter]
  refine ⟨rfl, List.filter_sublist values, fun v => List.mem_filter, ?_, by decide⟩
  intro v hv
  rw [List.count_filter hv]

/-- C13: `filter` is a total function (it cannot fail); on the empty slice it
returns the empty slice, and so it does whenever the predicate is false on
every element of `values`; `filter always_false [1,2,3]` is empty. -/
theorem filter_nothing_qualifies (pred : Int → Bool) (values : List Int)
    (h : ∀ v ∈ values, pred v = false) :
    filter pred values = [] ∧ filter pred [] = [] ∧
      filter (fun _ => false) [1, 2, 3] = [] := by
  refine ⟨?_, rfl, by decide⟩
  rw [filter_eq_listFilter, List.filter_eq_nil_iff]
  intro v hv
  simp [h v hv]

/-- Witness for `filter_nothing_qualifies`: no element of `[2, 4]` is odd. -/
theorem filter_nothing_qualifies_witness :
    (∀ v ∈ ([2, 4] : List Int), isOdd v = false) ∧ filter isOdd [2, 4] = [] :=
  ⟨by decide, (filter_nothing_qualifies isOdd [2, 4] (by decide)).1⟩

/-- Value of `isOdd` on every integer: true exactly on the odd integers that
are positive. -/
theorem isOdd_iff (n : Int) : isOdd n = true ↔ 0 < n ∧ n % 2 = 1 := by
  unfold isOdd
  rw [decide_eq_true_iff]
  constructor
  · intro h
    have hpos : 0 < n := by
      by_contra hn
      have hle : n ≤ 0 := not_lt.mp hn
      have h3 : 0 ≤ Int.tmod (-n) 2 := Int.tmod_nonneg 2 (by omega)
      rw [Int.tmod_def, Int.neg_tdiv] at h3
      rw [Int.tmod_def] at h
      generalize Int.tdiv n 2 = d at h h3
      omega
    refine ⟨hpos, ?_⟩
    rw [← Int.tmod_eq_emod (le_of_lt hpos) (by decide)]
    exact h
  · rintro ⟨hpos, h⟩
    rw [Int.tmod_eq_emod (le_of_lt hpos) (by decide)]
    exact h

/-- C18 (code defect): `-3` is odd (not divisible by 2), yet `isOdd (-3)` is
false, because the Go remainder `-3 % 2` is `-1`; the same holds for `-1`. -/
theorem isOdd_negative_odd :
    InInt64 (-3) ∧ ¬ (2 : Int) ∣ -3 ∧ Int.tmod (-3) 2 = -1 ∧ isOdd (-3) = false ∧
      isOdd (-1) = false := by
  decide

/-- C17: `Sum` never fails and never saturates: its result is a 64-bit int
congruent to the mathematical sum modulo `2^64` (the sum reduced into the signed
64-bit range), and it equals the mathematical sum exactly when that sum is in
the range of the 64-bit int. -/
theorem Sum_wraps_mod_two_pow_64 (nums : List Int) :
    Sum nums = wrap64 nums.sum ∧ InInt64 (Sum nums) ∧
      (∃ k : Int, Sum nums = nums.sum + k * 2 ^ 64) ∧
      (Sum nums = nums.sum ↔ InInt64 nums.sum) := by
  have hs := Sum_eq_wrap64 nums
  refine ⟨hs, ?_, ?_, ?_⟩
  · rw [hs]; exact wrap64_inInt64 _
  · rw [hs]
    refine ⟨-((nums.sum + 2 ^ 63) / 2 ^ 64), ?_⟩
    unfold wrap64
    omega
  · constructor
    · intro h
      rw [← h, hs]
      exact wrap64_inInt64 _
    · intro h
      rw [hs, wrap64_of_inInt64 _ h]

/-! ## Tokens of `frequency` -/

/-- The ASCII lower-casing table maps the space, and nothing else, to the
space. -/
theorem toLower_eq_space (c : Char) : Char.toLower c = ' ' ↔ c = ' ' := by
  unfold Char.toLower
  by_cases h : c.toNat ≥ 65 ∧ c.toNat ≤ 90
  · simp only [h, and_self, if_true]
    obtain ⟨h1, h2⟩ := h
    constructor
    · intro he
      exfalso
      have hn : (Char.ofNat (c.toNat + 32)).toNat = (' ' : Char).toNat := by rw [he]
      generalize c.toNat = n at h1 h2 hn
      interval_cases n <;> revert hn <;> decide
    · intro he
      subst he
      revert h1
      decide
  · simp only [h, if_false]

/-- Splitting commutes with a character map that fixes the separator and
maps nothing else to it. -/
theorem splitChars_map (lower : Char → Char) (sep : Char)
    (hl : ∀ c, lower c = sep ↔ c = sep) (cs : List Char) :
    splitChars sep (cs.map lower) = (splitChars sep cs).map (List.map lower) := by
  induction cs with
  | nil => rfl
  | cons c cs ih =>
    rw [List.map_cons, splitChars, splitChars, ih]
    by_cases h : c = sep
    · rw [if_pos ((hl c).mpr h), if_pos h]
      rfl
    · rw [if_neg (fun hc => h ((hl c).mp hc)), if_neg h]
      cases splitChars sep cs with
      | nil => rfl
      | cons w ws => rfl

/-- A string with `k` separators splits into `k + 1` pieces. -/
theorem length_splitChars (sep : Char) (cs : List Char) :
    (splitChars sep cs).length = cs.count sep + 1 := by
  induction cs with
  | nil => rfl
  | cons c cs ih =>
    rw [splitChars]
    by_cases h : c = sep
    · subst h
      rw [if_pos rfl, List.length_cons, ih, List.count_cons_self]
    · rw [if_neg h, List.count_cons_of_ne (fun hc => h hc.symm)]
      have hne := splitChars_ne_nil sep cs
      cases hs : splitChars sep cs with
      | nil => exact absurd hs hne
      | cons w ws =>
        rw [hs] at ih
        simpa using ih

theorem String_mk_injective : Function.Injective String.mk := by
  intro a b h
  cases h
  rfl

theorem count_nil_map (f : Char → Char) (pieces : List (List Char)) :
    @List.count (List Char) instBEqOfDecidableEq [] (pieces.map (List.map f))
      = @List.count (List Char) instBEqOfDecidableEq [] pieces := by
  induction pieces with
  | nil => rfl
  | cons p ps ih =>
    rw [List.map_cons, @List.count_cons _ instBEqOfDecidableEq,
      @List.count_cons _ instBEqOfDecidableEq, ih]
    cases p <;> simp

/-- Lower-casing with a table that preserves spaces leaves the number of empty
pieces unchanged. -/
theorem count_empty_ToLower (lower : Char → Char) (hl : ∀ c, lower c = ' ' ↔ c = ' ')
    (str : String) :
    (SplitSeq (ToLower lower str) ' ').count "" = (SplitSeq str ' ').count "" := by
  have hmk : ("" : String) = String.mk [] := rfl
  unfold SplitSeq ToLower
  rw [hmk, List.count_map_of_injective _ _ String_mk_injective,
    List.count_map_of_injective _ _ String_mk_injective]
  simp only []
  rw [splitChars_map lower ' ' hl]
  exact count_nil_map lower _

/-- C11: empty tokens are counted like any other token.  When the split of
`str` at the spaces yields `k ≥ 1` empty strings, `frequency str` has the key
`""` and its count is exactly `k` (the lower-casing table preserves spaces, as
`unicode.ToLower` does); `frequency "a  b"` maps `""` to 1. -/
theorem frequency_counts_empty_tokens (lower : Char → Char)
    (hl : ∀ c, lower c = ' ' ↔ c = ' ') (str : String) (k : Nat)
    (hk : (SplitSeq str ' ').count "" = k) (hpos : 1 ≤ k) :
    (frequency lower str).contains "" = true ∧ (frequency lower str).get "" = (k : Int) ∧
      (frequency Char.toLower "a  b").get "" = 1 := by
  have hc := count_empty_ToLower lower hl str
  rw [hk] at hc
  refine ⟨?_, ?_, by decide⟩
  · have h := count_loop_contains (SplitSeq (ToLower lower str) ' ') GoMap.make ""
    apply h.mpr
    right
    rw [← List.count_pos_iff, hc]
    exact hpos
  · have h := count_loop_get (SplitSeq (ToLower lower str) ' ') GoMap.make ""
    have h0 : GoMap.make.get "" = 0 := rfl
    rw [h0, zero_add, hc] at h
    exact h

/-- Witness for `frequency_counts_empty_tokens`: `" a  "` splits into
`"", "a", "", ""`, three empty strings. -/
theorem frequency_counts_empty_tokens_witness :
    (∀ c, Char.toLower c = ' ' ↔ c = ' ') ∧ (SplitSeq " a  " ' ').count "" = 3 ∧ 1 ≤ 3 ∧
      (frequency Char.toLower " a  ").contains "" = true ∧
      (frequency Char.toLower " a  ").get "" = 3 :=
  ⟨toLower_eq_space, by decide, by decide,
    (frequency_counts_empty_tokens Char.toLower toLower_eq_space " a  " 3 (by decide)
      (by decide)).1,
    (frequency_counts_empty_tokens Char.toLower toLower_eq_space " a  " 3 (by decide)
      (by decide)).2.1⟩

theorem get_cons_ne (k0 : String) (w : Int) (rest : List (String × Int)) (k : String)
    (h : ¬ k0 = k) : GoMap.get ⟨(k0, w) :: rest⟩ k = GoMap.get ⟨rest⟩ k := by
  simp only [GoMap.get, GoMap.find, if_neg h]

/-- Incrementing the count of one key raises the sum of all counts by one. -/
theorem total_increment (m : GoMap) (k : String) :
    (m.set k (m.get k + 1)).total = m.total + 1 := by
  obtain ⟨es⟩ := m
  simp only [GoMap.set, GoMap.total]
  induction es with
  | nil => simp [GoMap.store, GoMap.get, GoMap.find]
  | cons e rest ih =>
    obtain ⟨k0, w⟩ := e
    by_cases h : k0 = k
    · subst h
      simp only [GoMap.store, GoMap.get, GoMap.find, if_true, List.map_cons, List.sum_cons]
      ring
    · rw [get_cons_ne k0 w rest k h]
      simp only [GoMap.store, if_neg h, List.map_cons, List.sum_cons, ih]
      ring

/-- The counting loop adds the number of words to the sum of all counts. -/
theorem count_loop_total (words : List String) (m : GoMap) :
    (words.foldl (fun freq word => freq.set word (freq.get word + 1)) m).total
      = m.total + (words.length : Int) := by
  induction words generalizing m with
  | nil => simp
  | cons x xs ih =>
    rw [List.foldl_cons, ih, total_increment, List.length_cons]
    push_cast
    ring

/-- Number of tokens of `frequency`: one more than the number of spaces of the
input, when the lower-casing table preserves spaces. -/
theorem length_tokens (lower : Char → Char) (hl : ∀ c, lower c = ' ' ↔ c = ' ')
    (str : String) :
    (SplitSeq (ToLower lower str) ' ').length = str.data.count ' ' + 1 := by
  unfold SplitSeq ToLower
  simp only [List.length_map]
  rw [splitChars_map lower ' ' hl, List.length_map, length_splitChars]

/-- C19: the counts of `frequency str` add up to the number of tokens, which
is the number of spaces of `str` plus one (the lower-casing table preserves
spaces, as `unicode.ToLower` does); every key present has a count of at least
1; the map is never empty, and `frequency ""` is the map with the single entry
`"": 1`. -/
theorem frequency_total_is_token_count (lower : Char → Char)
    (hl : ∀ c, lower c = ' ' ↔ c = ' ') (str : String) :
    (frequency lower str).total = ((SplitSeq (ToLower lower str) ' ').length : Int) ∧
      (frequency lower str).total = ((str.data.count ' ' + 1 : Nat) : Int) ∧
      (∀ w, (frequency lower str).contains w = true → 1 ≤ (frequency lower str).get w) ∧
      0 < (frequency lower str).len ∧
      (frequency Char.toLower "").entries = [("", 1)] := by
  have htot : (frequency lower str).total = ((SplitSeq (ToLower lower str) ' ').length : Int) := by
    have h := count_loop_total (SplitSeq (ToLower lower str) ' ') GoMap.make
    have h0 : GoMap.make.total = 0 := rfl
    rw [h0, zero_add] at h
    exact h
  have hlen := length_tokens lower hl str
  have hget : ∀ w, (frequency lower str).get w
      = ((SplitSeq (ToLower lower str) ' ').count w : Int) := by
    intro w
    have h := count_loop_get (SplitSeq (ToLower lower str) ' ') GoMap.make w
    have h0 : GoMap.make.get w = 0 := rfl
    rw [h0, zero_add] at h
    exact h
  have hcon : ∀ w, (frequency lower str).contains w = true
      ↔ w ∈ SplitSeq (ToLower lower str) ' ' := by
    intro w
    have h := count_loop_contains (SplitSeq (ToLower lower str) ' ') GoMap.make w
    have h0 : GoMap.make.contains w = false := rfl
    rw [h0] at h
    simpa [frequency] using h
  refine ⟨htot, ?_, ?_, ?_, by decide⟩
  · rw [htot, hlen]
  · intro w hw
    rw [hget w]
    have := List.count_pos_iff.mpr ((hcon w).mp hw)
    exact_mod_cast this
  · cases htok : SplitSeq (ToLower lower str) ' ' with
    | nil => rw [htok] at hlen; simp at hlen
    | cons w ws =>
      have hw : (frequency lower str).contains w = true :=
        (hcon w).mpr (by rw [htok]; exact List.mem_cons_self _ _)
      unfold GoMap.len
      cases he : (frequency lower str).entries with
      | nil =>
        unfold GoMap.contains at hw
        rw [he] at hw
        simp [GoMap.find] at hw
      | cons e es => simp

/-- Witness for `frequency_total_is_token_count` on `"To be or not to be"`:
five spaces, six tokens. -/
theorem frequency_total_is_token_count_witness :
    (∀ c, Char.toLower c = ' ' ↔ c = ' ') ∧
      (frequency Char.toLower "To be or not to be").total
        = (("To be or not to be".data.count ' ' + 1 : Nat) : Int) :=
  ⟨toLower_eq_space,
    (frequency_total_is_token_count Char.toLower toLower_eq_space "To be or not to be").2.1⟩

/-! ## `cmdFreq` -/

theorem FindStringSubmatch_of_none (text : String) (h : capture text = none) :
    FindStringSubmatch text = [] := by
  unfold capture at h
  unfold FindStringSubmatch
  cases hc : findCapture text.data with
  | none => rfl
  | some cap => rw [hc] at h; cases h

theorem FindStringSubmatch_of_some (text : String) (c : String) (h : capture text = some c) :
    ∃ whole, FindStringSubmatch text = [whole, c] := by
  unfold capture at h
  unfold FindStringSubmatch
  cases hc : findCapture text.data with
  | none => rw [hc] at h; cases h
  | some cap =>
    rw [hc] at h
    have h2 : String.mk cap = c := by simpa using h
    exact ⟨_, by rw [← h2]⟩

/-- One pass of the loop body: a line without match leaves the table as it is,
a line with a match increments the count of its capture; no index panics. -/
theorem cmdFreq_step_eq (freqs : GoMap) (text : String) :
    cmdFreq.step freqs text = .ok
      (match capture text with
        | none => freqs
        | some c => freqs.set c (freqs.get c + 1)) := by
  unfold cmdFreq.step
  cases hc : capture text with
  | none =>
    rw [FindStringSubmatch_of_none text hc]
    rfl
  | some c =>
    obtain ⟨whole, hw⟩ := FindStringSubmatch_of_some text c hc
    rw [hw]
    rfl

/-- The scanning loop never panics and computes the counting loop of the
captures of the matching lines. -/
theorem cmdFreq_loop (lines : List String) (m : GoMap) :
    lines.foldlM cmdFreq.step m = .ok
      ((lines.filterMap capture).foldl (fun freq word => freq.set word (freq.get word + 1)) m) := by
  induction lines generalizing m with
  | nil => rfl
  | cons l ls ih =>
    rw [List.foldlM_cons, cmdFreq_step_eq]
    cases hc : capture l with
    | none =>
      simp only [List.filterMap_cons, hc]
      exact ih m
    | some c =>
      simp only [List.filterMap_cons, hc, List.foldl_cons]
      exact ih _

theorem count_filterMap_capture (lines : List String) (c : String) :
    (lines.filterMap capture).count c
      = lines.countP (fun l => decide (capture l = some c)) := by
  induction lines with
  | nil => rfl
  | cons l ls ih =>
    cases hc : capture l with
    | none => simp [List.filterMap_cons, hc, List.countP_cons, ih]
    | some d =>
      by_cases hd : d = c
      · subst hd
        simp [List.filterMap_cons, hc, List.countP_cons, ih]
      · have hb : (d == c) = false := by simpa using hd
        simp [List.filterMap_cons, hc, List.countP_cons, ih, List.count_cons, hd, hb]

/-- C14: when the line source is read to its end without a read error,
`cmdFreq` returns a table and no error; the count of each key `c` is the number
of lines whose first match of `;go ([a-z]+)` captures exactly `c`, the keys
are exactly the captures that occur, lines without a match contribute nothing,
and when no line matches the table is empty. -/
theorem cmdFreq_counts_captures (osOpen : String → OpenResult) (fileName : String)
    (lines : List String) (h : osOpen fileName = .opened ⟨lines, none⟩) :
    ∃ m : GoMap, cmdFreq osOpen fileName = .ok (some m, none) ∧
      (∀ c, m.get c = (lines.countP (fun l => decide (capture l = some c)) : Int)) ∧
      (∀ c, m.contains c = true ↔ ∃ l ∈ lines, capture l = some c) ∧
      ((∀ l ∈ lines, capture l = none) → m.entries = []) := by
  refine ⟨(lines.filterMap capture).foldl
    (fun freq word => freq.set word (freq.get word + 1)) GoMap.make, ?_, ?_, ?_, ?_⟩
  · unfold cmdFreq
    rw [h]
    simp only [cmdFreq_loop]
    rfl
  · intro c
    have hg := count_loop_get (lines.filterMap capture) GoMap.make c
    have h0 : GoMap.make.get c = 0 := rfl
    rw [hg, h0, zero_add, count_filterMap_capture]
  · intro c
    have hc := count_loop_contains (lines.filterMap capture) GoMap.make c
    have h0 : GoMap.make.contains c = false := rfl
    rw [hc, h0]
    simp [List.mem_filterMap]
  · intro hnone
    have hnil : lines.filterMap capture = [] := by
      rw [List.filterMap_eq_nil_iff]
      exact hnone
    rw [hnil]
    rfl

/-- Witness for `cmdFreq_counts_captures` on a history of three lines, two of
which run `go build`. -/
theorem cmdFreq_counts_captures_witness :
    (fun _ => OpenResult.opened ⟨[": 1:0;go build", "ls", ";go build ./..."], none⟩)
        "zsh_history" = OpenResult.opened ⟨[": 1:0;go build", "ls", ";go build ./..."], none⟩ ∧
      ∃ m : GoMap,
        cmdFreq (fun _ => OpenResult.opened ⟨[": 1:0;go build", "ls", ";go build ./..."], none⟩)
          "zsh_history" = .ok (some m, none) ∧ m.get "build" = 2 :=
  ⟨rfl, (cmdFreq_counts_captures
    (fun _ => OpenResult.opened ⟨[": 1:0;go build", "ls", ";go build ./..."], none⟩)
    "zsh_history" [": 1:0;go build", "ls", ";go build ./..."] rfl).imp
    fun _ hm => ⟨hm.1, (hm.2.1 "build").trans (by decide)⟩⟩

/-- C15: when the line source reports a read failure, after any number of
lines read, `cmdFreq` returns that error together with the nil map: the counts
accumulated so far are not returned. -/
theorem cmdFreq_read_failure (osOpen : String → OpenResult) (fileName : String)
    (lines : List String) (err : GoError)
    (h : osOpen fileName = .opened ⟨lines, some err⟩) :
    cmdFreq osOpen fileName = .ok (none, some err) := by
  unfold cmdFreq
  rw [h]
  simp only [cmdFreq_loop]
  rfl

/-- Witness for `cmdFreq_read_failure`: a read error after two lines, one of
which matches. -/
theorem cmdFreq_read_failure_witness :
    (fun _ => OpenResult.opened ⟨[";go test", "ls"], some ⟨"read error"⟩⟩) "zsh_history"
        = OpenResult.opened ⟨[";go test", "ls"], some ⟨"read error"⟩⟩ ∧
      cmdFreq (fun _ => OpenResult.opened ⟨[";go test", "ls"], some ⟨"read error"⟩⟩)
        "zsh_history" = .ok (none, some ⟨"read error"⟩) :=
  ⟨rfl, cmdFreq_read_failure _ "zsh_history" [";go test", "ls"] ⟨"read error"⟩ rfl⟩

/-! ## Median: effect on the slice of the caller -/

theorem getD_eq_of_getElem? (l l2 : List (List ℚ)) (a : Nat) (h : l[a]? = l2[a]?) :
    l.getD a [] = l2.getD a [] := by
  simp only [List.getD_eq_getElem?_getD, h]

/-- Writing through a slice leaves every other array as it is. -/
theorem write_other (h : Heap) (s : Slice) (xs : List ℚ) (a : Nat) (ha : a ≠ s.arr) :
    (h.write s xs).arrays[a]? = h.arrays[a]? := by
  simp only [Heap.write]
  rw [List.getElem?_set_ne (fun hc => ha hc.symm)]

theorem read_write_same (h : Heap) (s : Slice) (xs : List ℚ) (hs : s.arr < h.arrays.length)
    (h0 : s.off = 0) (hlen : xs.length = s.len) :
    (h.write s xs).read s = xs := by
  simp only [Heap.write, Heap.read, h0, List.take_zero, List.nil_append, Nat.zero_add,
    List.drop_zero, List.getD_eq_getElem?_getD, List.getElem?_set_self hs, Option.getD_some]
  rw [← hlen, List.take_left]

/-- Arrays allocated before the call are the same after it. -/
theorem Median_run_arrays (h : Heap) (nums : Slice) (a : Nat) (ha : a < h.arrays.length) :
    (Median.run h nums).1.arrays[a]? = h.arrays[a]? := by
  have hne : a ≠ h.arrays.length := Nat.ne_of_lt ha
  simp only [Median.run, Heap.sortFloat64s, Heap.copy, Heap.makeSlice]
  rw [write_other _ _ _ a hne, write_other _ _ _ a hne]
  exact List.getElem?_append_left ha

theorem length_read (h : Heap) (s : Slice) (hv : h.Valid s) : (h.read s).length = s.len := by
  obtain ⟨_, hb⟩ := hv
  simp only [Heap.read, List.length_take, List.length_drop]
  omega

theorem Median_run_read (h : Heap) (nums : Slice) (hv : h.Valid nums) :
    (Median.run h nums).1.read nums = h.read nums := by
  have ha := Median_run_arrays h nums nums.arr hv.1
  unfold Heap.read
  rw [getD_eq_of_getElem? _ _ _ ha]

/-- The heap execution returns what the list model `Median` returns on the
elements of the slice. -/
theorem Median_run_result (h : Heap) (nums : Slice) (hv : h.Valid nums) :
    (Median.run h nums).2.2 = Median (h.read nums) := by
  have hr := Median_run_read h nums hv
  have hl := length_read h nums hv
  simp only [Median.run] at hr ⊢
  rw [hr]
  simp only [Median, Median.exec, hl]

/-- The local slice `vals` is a fresh array holding the sorted elements. -/
theorem Median_run_vals (h : Heap) (nums : Slice) (hv : h.Valid nums) :
    (Median.run h nums).2.1.arr = h.arrays.length ∧
      (Median.run h nums).1.read (Median.run h nums).2.1 = Float64s (h.read nums) := by
  have hl := length_read h nums hv
  refine ⟨rfl, ?_⟩
  have hfresh : h.arrays.length < (h.makeSlice nums.len).1.arrays.length := by
    simp [Heap.makeSlice]
  have hnums1 : (h.makeSlice nums.len).1.read nums = h.read nums := by
    simp only [Heap.read, Heap.makeSlice]
    rw [getD_eq_of_getElem? _ h.arrays nums.arr (List.getElem?_append_left hv.1)]
  have htake : List.take nums.len (h.read nums) = h.read nums :=
    List.take_of_length_le (le_of_eq hl)
  have hcopy : ((h.makeSlice nums.len).1.copy (h.makeSlice nums.len).2 nums).read
      (h.makeSlice nums.len).2 = h.read nums := by
    unfold Heap.copy
    rw [hnums1]
    have hmin : min (h.makeSlice nums.len).2.len nums.len = nums.len := by
      simp [Heap.makeSlice]
    rw [hmin, htake]
    exact read_write_same _ _ _ hfresh rfl hl
  simp only [Median.run, Heap.sortFloat64s]
  rw [hcopy]
  refine read_write_same _ _ _ ?_ rfl ?_
  · simp [Heap.copy, Heap.write, Heap.makeSlice]
  · rw [Float64s, List.length_insertionSort, hl]
    rfl

/-- C16: `Median` never mutates the slice of the caller.  For every slice
`nums` of an allocated array, after the call `nums` holds the same elements in
the same order, every array that existed before the call is unchanged, and the
sorted elements are in the fresh array of the local slice `vals` only. -/
theorem Median_does_not_mutate_input (h : Heap) (nums : Slice) (hv : h.Valid nums)
    (hne : 0 < nums.len) :
    (Median.run h nums).1.read nums = h.read nums ∧
      (∀ a, a < h.arrays.length → (Median.run h nums).1.arrays[a]? = h.arrays[a]?) ∧
      (Median.run h nums).2.1.arr = h.arrays.length ∧
      (Median.run h nums).1.read (Median.run h nums).2.1 = Float64s (h.read nums) ∧
      (∃ v, (Median.run h nums).2.2 = .ok v) ∧
      (Median.exec (h.read nums)).nums = h.read nums := by
  have hl := length_read h nums hv
  refine ⟨Median_run_read h nums hv, fun a ha => Median_run_arrays h nums a ha,
    (Median_run_vals h nums hv).1, (Median_run_vals h nums hv).2, ?_, rfl⟩
  rw [Median_run_result h nums hv]
  rcases Nat.mod_two_eq_zero_or_one (h.read nums).length with hp | hp
  · exact ⟨_, Median_even _ hp (by omega)⟩
  · exact ⟨_, Median_odd _ hp⟩

/-- Witness for `Median_does_not_mutate_input`: the caller passes the window
`[3, 1, 2]` of the array `[9, 3, 1, 2, 7]`. -/
theorem Median_does_not_mutate_input_witness :
    Heap.Valid ⟨[[9, 3, 1, 2, 7]]⟩ ⟨0, 1, 3⟩ ∧ 0 < (⟨0, 1, 3⟩ : Slice).len ∧
      (Median.run ⟨[[9, 3, 1, 2, 7]]⟩ ⟨0, 1, 3⟩).1.read ⟨0, 1, 3⟩
        = Heap.read ⟨[[9, 3, 1, 2, 7]]⟩ ⟨0, 1, 3⟩ :=
  ⟨by decide, by decide,
    (Median_does_not_mutate_input ⟨[[9, 3, 1, 2, 7]]⟩ ⟨0, 1, 3⟩ (by decide) (by decide)).1⟩

/-! ## Median: index range and bounds of the result -/

/-- A non-empty slice has a least and a greatest element. -/
theorem exists_min_max (nums : List ℚ) (hne : nums ≠ []) :
    ∃ lo ∈ nums, ∃ hi ∈ nums, ∀ x ∈ nums, lo ≤ x ∧ x ≤ hi := by
  induction nums with
  | nil => exact absurd rfl hne
  | cons y ys ih =>
    cases ys with
    | nil =>
      refine ⟨y, List.mem_cons_self _ _, y, List.mem_cons_self _ _, ?_⟩
      intro x hx
      have hxy : x = y := by simpa using hx
      rw [hxy]
      exact ⟨le_refl _, le_refl _⟩
    | cons z zs =>
      obtain ⟨lo, hlo, hi, hhi, hb⟩ := ih (by simp)
      refine ⟨min y lo, ?_, max y hi, ?_, ?_⟩
      · rcases min_choice y lo with h | h
        · rw [h]; exact List.mem_cons_self _ _
        · rw [h]; exact List.mem_cons_of_mem _ hlo
      · rcases max_choice y hi with h | h
        · rw [h]; exact List.mem_cons_self _ _
        · rw [h]; exact List.mem_cons_of_mem _ hhi
      · intro x hx
        rcases List.mem_cons.mp hx with rfl | hx
        · exact ⟨min_le_left _ _, le_max_left _ _⟩
        · exact ⟨le_trans (min_le_right _ _) (hb x hx).1, le_trans (hb x hx).2 (le_max_right _ _)⟩

/-- C20 (counterexample): both elements of `[MaxFloat64, MaxFloat64]` are finite
floats and every index access is in range, but the float sum of the two
central elements overflows: `Median` returns `+Inf`, which is not between the
minimum and the maximum of the input (both `MaxFloat64`). -/
theorem Median_overflow_exceeds_max :
    Median [maxFloat64, maxFloat64] = .ok F64.posInf ∧
      ¬ F64.Between maxFloat64 maxFloat64 F64.posInf ∧
      ¬ ∃ q, Median [maxFloat64, maxFloat64] = .ok (F64.finite q) ∧
        maxFloat64 ≤ q ∧ q ≤ maxFloat64 := by
  have hm : Median [maxFloat64, maxFloat64] = .ok F64.posInf := by
    rw [Median_even _ (by decide) (by decide)]
    simp only [List.length, List.get]
    rw [half_add_maxFloat64]
  refine ⟨hm, fun h => h, ?_⟩
  rintro ⟨q, hq, _⟩
  rw [hm] at hq
  cases hq

/-- C20 (amended): on a non-empty slice of finite floats every index access of
`Median` is in range, so a value `r` is returned.  When the length is odd `r`
is the element read; when it is even, with `a` and `b` the two elements read,
`r` is their average if the float sum `a + b` does not overflow, `+Inf` if the
sum is at or above the overflow threshold and `-Inf` if it is at or below its
negative.  Whenever the length is odd or the sum does not overflow, `r` lies
between the minimum and the maximum element of the input, inclusive (between
every lower and upper bound of the input; a least and a greatest element
exist). -/
theorem Median_in_range_and_bounded (nums : List ℚ) (hne : nums ≠ []) :
    ∃ r, Median nums = .ok r ∧
      (nums.length % 2 = 1 → ∃ a, nums[nums.length / 2]? = some a ∧ r = F64.finite a) ∧
      (nums.length % 2 = 0 → ∃ a b, nums[nums.length / 2 - 1]? = some a ∧
        nums[nums.length / 2]? = some b ∧
        (|a + b| < overflowThreshold → r = F64.finite ((a + b) / 2)) ∧
        (overflowThreshold ≤ a + b → r = F64.posInf) ∧
        (a + b ≤ -overflowThreshold → r = F64.negInf)) ∧
      (∀ lo hi, (∀ x ∈ nums, lo ≤ x ∧ x ≤ hi) →
        (nums.length % 2 = 1 ∨ ∃ a b, nums[nums.length / 2 - 1]? = some a ∧
          nums[nums.length / 2]? = some b ∧ |a + b| < overflowThreshold) →
        F64.Between lo hi r) ∧
      (∃ lo ∈ nums, ∃ hi ∈ nums, ∀ x ∈ nums, lo ≤ x ∧ x ≤ hi) := by
  have hpos : 0 < nums.length := List.length_pos.mpr hne
  have hT := overflowThreshold_pos
  rcases Nat.mod_two_eq_zero_or_one nums.length with h | h
  · obtain ⟨a, b, hma, hmb, hga, hgb, hM⟩ : ∃ a b, a ∈ nums ∧ b ∈ nums ∧
        nums[nums.length / 2 - 1]? = some a ∧ nums[nums.length / 2]? = some b ∧
        Median nums = .ok (F64.half (F64.add (.finite a) (.finite b))) :=
      ⟨_, _, List.get_mem nums (nums.length / 2 - 1) (by omega),
        List.get_mem nums (nums.length / 2) (by omega),
        List.getElem?_eq_getElem (by omega), List.getElem?_eq_getElem (by omega),
        Median_even nums h hpos⟩
    have hb := half_add_finite a b
    refine ⟨_, hM, fun h1 => by omega, fun _ => ⟨a, b, hga, hgb, ?_, ?_, ?_⟩, ?_,
      exists_min_max nums hne⟩
    · intro hlt
      exact half_add_of_lt a b hlt
    · intro hge
      rw [hb, if_pos hge]
    · intro hle
      rw [hb, if_neg (by intro hc; linarith), if_pos hle]
    · intro lo hi hbd hcond
      rcases hcond with h1 | ⟨a2, b2, ha2, hb2, hlt⟩
      · omega
      · rw [hga] at ha2
        rw [hgb] at hb2
        cases ha2
        cases hb2
        rw [half_add_of_lt a b hlt]
        have ha := hbd a hma
        have hbb := hbd b hmb
        exact ⟨by linarith [ha.1, hbb.1], by linarith [ha.2, hbb.2]⟩
  · obtain ⟨a, hma, hga, hM⟩ : ∃ a, a ∈ nums ∧ nums[nums.length / 2]? = some a ∧
        Median nums = .ok (F64.finite a) :=
      ⟨_, List.get_mem nums (nums.length / 2) (by omega),
        List.getElem?_eq_getElem (by omega), Median_odd nums h⟩
    refine ⟨_, hM, fun _ => ⟨a, hga, rfl⟩, fun h0 => by omega, ?_, exists_min_max nums hne⟩
    intro lo hi hbd _
    exact hbd a hma

/-- Witness for `Median_in_range_and_bounded` on the slice `[3, 1]`: the value
returned is `2`, between `1` and `3`. -/
theorem Median_in_range_and_bounded_witness :
    ([3, 1] : List ℚ) ≠ [] ∧ ∃ r, Median [3, 1] = .ok r ∧
      (∀ lo hi, (∀ x ∈ ([3, 1] : List ℚ), lo ≤ x ∧ x ≤ hi) →
        (([3, 1] : List ℚ).length % 2 = 1 ∨ ∃ a b, ([3, 1] : List ℚ)[2 / 2 - 1]? = some a ∧
          ([3, 1] : List ℚ)[2 / 2]? = some b ∧ |a + b| < overflowThreshold) →
        F64.Between lo hi r) :=
  ⟨by decide, (Median_in_range_and_bounded [3, 1] (by decide)).imp fun _ hr =>
    ⟨hr.1, hr.2.2.2.1⟩⟩

end GoRecipes
